import Mathlib

/-!
Verification of the SQL-Agent schema-chunking pipeline
(`src/rag/classes/db_schema_extractor.py`, `src/rag/classes/db_schema_builder.py`).

Text is modelled at the character level as `List Char`.  Python semantics that
matter here: `str.strip` (ASCII whitespace; exotic unicode whitespace is out of
scope of this model), `re.split` with a capturing group, dict `.get` with a
default, and exceptions (modelled with `Except`).
-/

set_option maxRecDepth 10000

/-- Program text: a Python string as a list of characters. -/
abbrev Str := List Char

/-- Shorthand turning a Lean string literal into program text. -/
def str (s : String) : Str := s.toList

/-- The ASCII whitespace characters of Python's `str.strip()`. -/
def isPySpace (c : Char) : Bool :=
  c = ' ' || c = '\t' || c = '\n' || c = '\r' || c = '\x0b' || c = '\x0c'

/-- Remove trailing whitespace (the right half of Python's `str.strip()`). -/
def dropTrailSpace (s : Str) : Str := (s.reverse.dropWhile isPySpace).reverse

/-- Python's `str.strip()`: remove leading and trailing whitespace. -/
def pyStrip (s : Str) : Str := dropTrailSpace (s.dropWhile isPySpace)

/-- Concatenation of a list of texts. -/
def listJoin : List Str → Str
  | [] => []
  | s :: rest => s ++ listJoin rest

/-- `leadsWith pat s` is true when `pat` occurs at the very start of `s`. -/
def leadsWith : Str → Str → Bool
  | [], _ => true
  | _ :: _, [] => false
  | a :: pat, b :: s => a = b && leadsWith pat s

/-- Index of the leftmost occurrence of `pat` in `s`, if any
(the position at which a regex literal would first match). -/
def findIdx (pat : Str) : Str → Option Nat
  | [] => if leadsWith pat [] then some 0 else none
  | c :: s => if leadsWith pat (c :: s) then some 0 else (findIdx pat s).map (· + 1)

/-- Python's `pat in s` substring test. -/
def containsSubstr (pat s : Str) : Bool := (findIdx pat s).isSome

/-- Python's `str.lower()` (ASCII letters). -/
def lowerStr (s : Str) : Str := s.map Char.toLower

/-- First value bound to key `k` in an association list (a Python dict lookup). -/
def dictFind? {κ α : Type} [DecidableEq κ] : List (κ × α) → κ → Option α
  | [], _ => none
  | (k', v) :: rest, k => if k' = k then some v else dictFind? rest k

/-- Python's `dict.get(k, dflt)`. -/
def dictGetD {κ α : Type} [DecidableEq κ] (d : List (κ × α)) (k : κ) (dflt : α) : α :=
  match dictFind? d k with
  | some v => v
  | none => dflt

/-! ## Data model (`ChunkType`, `TableSchema`, `SchemaChunk` from the source) -/

/-- `ChunkType` enum of `db_schema_extractor.py`. -/
inductive ChunkType where
  | DESCRIPTION
  | SCHEMA
  | COLUMNS
  | SAMPLES
  | GENERAL
deriving DecidableEq

/-- The `.value` string of each `ChunkType` member. -/
def ChunkType.value : ChunkType → String
  | .DESCRIPTION => "description"
  | .SCHEMA => "schema"
  | .COLUMNS => "columns"
  | .SAMPLES => "samples"
  | .GENERAL => "general"

/-- The `TableSchema` dataclass. -/
structure TableSchema where
  table_name : Str
  columns_names : List Str
  raw_table_info : Str
  table_comment : Str
deriving DecidableEq

/-- The derived `full_schema` property of `TableSchema`. -/
def TableSchema.full_schema (s : TableSchema) : Str :=
  str "TABLE: " ++ s.table_name ++ str "\n\nDESCRIPTION: " ++ s.table_comment
    ++ str "\n\n" ++ s.raw_table_info

/-- The `SchemaChunk` dataclass. -/
structure SchemaChunk where
  table_name : Str
  columns_names : List Str
  content : Str
  chunk_type : String
  chunk_order : Nat
deriving DecidableEq

/-! ## Block Detector (`_split_by_comment_blocks`, `_detect_block_type`) -/

/-- One step list of `re.split(r"(/\x2a.\x2a?\x2a/)", text, flags=re.DOTALL)`:
fuelled scan isolating each non-greedy comment block as its own segment.
One unit of fuel is spent per match and every match consumes at least four
characters, so fuel `s.length` (used below) never runs out. -/
def reSplitAux : Nat → Str → List Str
  | 0, s => [s]
  | fuel + 1, s =>
    match findIdx (str "/*") s with
    | none => [s]
    | some i =>
      match findIdx (str "*/") (s.drop (i + 2)) with
      | none => [s]
      | some j =>
        s.take i :: (s.drop i).take (j + 4) :: reSplitAux fuel (s.drop (i + j + 4))

/-- `re.split` on the capturing non-greedy comment-block pattern: comment and
non-comment segments interleaved in source order. -/
def reSplitCommentBlocks (s : Str) : List Str := reSplitAux s.length s

/-- The enum tag chosen by `_detect_block_type`. -/
def detect_block_type (text : Str) : String :=
  let text_lower := lowerStr text
  if containsSubstr (str "create table") text_lower then ChunkType.SCHEMA.value
  else if containsSubstr (str "column comments:") text_lower then ChunkType.COLUMNS.value
  else if containsSubstr (str "rows from") text_lower then ChunkType.SAMPLES.value
  else ChunkType.GENERAL.value

/-- The loop body of `_split_by_comment_blocks`: drop segments that are empty
after stripping, pair the rest with their detected type. -/
def buildBlocks : List Str → List (Str × String)
  | [] => []
  | part :: parts =>
    if (pyStrip part).isEmpty then buildBlocks parts
    else (pyStrip part, detect_block_type part) :: buildBlocks parts

/-- `_split_by_comment_blocks` of `SchemaSplitter`. -/
def split_by_comment_blocks (text : Str) : List (Str × String) :=
  buildBlocks (reSplitCommentBlocks text)

/-- `p` contains a (closed) comment block `/\x2a ... \x2a/`. -/
def hasCommentBlock (p : Str) : Bool :=
  match findIdx (str "/*") p with
  | none => false
  | some i => containsSubstr (str "*/") (p.drop (i + 2))

/-! ## Recursive Bounded Splitter

Modelled from the spec (section 4.2): the implementation is the third-party
`langchain` `RecursiveCharacterTextSplitter`, which is not part of this
repository's sources; only its configuration (the separator list,
`chunk_size`, `chunk_overlap`, `keep_separator=True`) appears in
`SchemaSplitter._create_splitter`.  The algorithm below follows the spec's
words: try each separator from coarsest to finest, split keeping the separator
attached to its following segment, greedily pack fitting segments left to
right up to the bound, recurse into oversized segments with the next
separator, fall back to single characters, and (for overlap > 0) prepend the
trailing overlap characters of the previous part to each later part. -/

/-- Segments of `s` after the first cut: fuelled scan cutting immediately
before each later (non-overlapping, leftmost) occurrence of `sep`.  Each step
consumes at least `sep.length ≥ 1` characters, so fuel `s.length` suffices. -/
def splitKeepSepGo (sep : Str) : Nat → Str → List Str
  | 0, r => [r]
  | fuel + 1, r =>
    match findIdx sep (r.drop sep.length) with
    | none => [r]
    | some j => r.take (sep.length + j) :: splitKeepSepGo sep fuel (r.drop (sep.length + j))

/-- Modelled from the spec: boundary-preserving split of `s` on `sep`, the
separator staying attached to the front of its following segment. -/
def splitKeepSep (sep s : Str) : List Str :=
  match findIdx sep s with
  | none => [s]
  | some i => s.take i :: splitKeepSepGo sep s.length (s.drop i)

/-- Modelled from the spec: the character-level fallback separator splits the
text into single-character segments. -/
def charSegs (s : Str) : List Str := s.map (fun c => [c])

/-- Modelled from the spec: greedy left-to-right packing of segments up to the
size bound, recursing (via `recur`) into segments that exceed it.  `buf` is
the merge buffer of small segments accumulated so far. -/
def packLoop (recur : Str → List Str) (chunk_size : Nat) : List Str → Str → List Str
  | [], buf => if buf.isEmpty then [] else [buf]
  | seg :: segs, buf =>
    if seg.length ≤ chunk_size then
      if buf.length + seg.length ≤ chunk_size then
        packLoop recur chunk_size segs (buf ++ seg)
      else buf :: packLoop recur chunk_size segs seg
    else
      (if buf.isEmpty then [] else [buf]) ++ recur seg ++ packLoop recur chunk_size segs []

/-- Modelled from the spec: recursive separator splitting.  Try the head
separator, pack the fitting segments and recurse into oversized ones with the
remaining separators; with no separators left the segment is an indivisible
unit and is emitted as-is. -/
def recSplit (chunk_size : Nat) : List Str → Str → List Str
  | [], s => [s]
  | sep :: rest, s =>
    let segs := if sep.isEmpty then charSegs s else splitKeepSep sep s
    packLoop (recSplit chunk_size rest) chunk_size segs []

/-- The separator list configured in `SchemaSplitter._create_splitter`. -/
def separators : List Str :=
  [str "\n\n/*\n", str "\n*/\n\n/*\n", str "\n*/\n", str "\n\n", str "\n", str " ", []]

/-- Modelled from the spec: each part after the first gets the trailing
`overlap` characters of the previous part prepended. -/
def applyOverlapGo (overlap : Nat) : Str → List Str → List Str
  | _, [] => []
  | prev, q :: qs => (prev.drop (prev.length - overlap) ++ q) :: applyOverlapGo overlap q qs

/-- Modelled from the spec: the overlap pass over the emitted parts. -/
def applyOverlap (overlap : Nat) : List Str → List Str
  | [] => []
  | p :: ps => p :: applyOverlapGo overlap p ps

/-- `split_text` of the configured splitter: recursive bounded splitting on
the configured separators followed by the overlap pass.  The system's
configurations use `chunk_overlap = 0`. -/
def splitText (chunk_size chunk_overlap : Nat) (s : Str) : List Str :=
  applyOverlap chunk_overlap (recSplit chunk_size separators s)

/-! ## Schema Chunker (`SchemaSplitter.split_single_schema` and helpers) -/

/-- `_format_chunk_content`: strip the part and prepend the table header and
the type-specific label. -/
def format_chunk_content (table_name content : Str) (chunk_type : String) : Str :=
  let c := pyStrip content
  if chunk_type = ChunkType.SCHEMA.value then
    str "TABLE: " ++ table_name ++ str "\n\nSCHEMA:\n" ++ c
  else if chunk_type = ChunkType.COLUMNS.value then
    str "TABLE: " ++ table_name ++ str "\n\nCOLUMN DESCRIPTIONS:\n" ++ c
  else if chunk_type = ChunkType.SAMPLES.value then
    str "TABLE: " ++ table_name ++ str "\n\nSAMPLE DATA:\n" ++ c
  else
    str "TABLE: " ++ table_name ++ str "\n\n" ++ c

/-- The `(part, block_type)` pairs visited by the nested loops of
`split_single_schema`: every block's text run through the splitter, in order. -/
def blockParts (split_text : Str → List Str) : List (Str × String) → List (Str × String)
  | [] => []
  | (block_text, block_type) :: blocks =>
    (split_text block_text).map (fun part => (part, block_type))
      ++ blockParts split_text blocks

/-- The chunk-building loop of `split_single_schema`: one `SchemaChunk` per
part, `chunk_order` incrementing by one from `order` on. -/
def chunksFromParts (schema : TableSchema) : List (Str × String) → Nat → List SchemaChunk
  | [], _ => []
  | (part, block_type) :: rest, order =>
    ⟨schema.table_name, schema.columns_names,
      format_chunk_content schema.table_name part block_type,
      block_type, order⟩ :: chunksFromParts schema rest (order + 1)

/-- `SchemaSplitter.split_single_schema`, parameterised by the splitter's
`split_text` (the Python code receives the configured splitter object).
Python's truthiness test `if schema.table_comment and ...` is the
non-emptiness test on the comment string. -/
def split_single_schema (split_text : Str → List Str) (schema : TableSchema) :
    List SchemaChunk :=
  let parts := blockParts split_text (split_by_comment_blocks schema.raw_table_info)
  if schema.table_comment ≠ [] ∧ schema.table_comment ≠ str "No description" then
    ⟨schema.table_name, schema.columns_names,
      str "TABLE: " ++ schema.table_name ++ str "\n\nDESCRIPTION:\n" ++ schema.table_comment,
      ChunkType.DESCRIPTION.value, 1⟩ :: chunksFromParts schema parts 2
  else
    chunksFromParts schema parts 1

/-- Concatenation of lists (the `all_chunks.extend(...)` loop). -/
def concatLists {α : Type} : List (List α) → List α
  | [] => []
  | xs :: rest => xs ++ concatLists rest

/-- `SchemaSplitter.split_schemas` (defaults `chunk_size = 800`,
`chunk_overlap = 0`; the bulk entry point passes `chunk_size = 400`). -/
def split_schemas (schemas : List TableSchema) (chunk_size chunk_overlap : Nat) :
    List SchemaChunk :=
  concatLists (schemas.map (split_single_schema (splitText chunk_size chunk_overlap)))

/-! ## Schema Extractor (`DatabaseSchemaExtractor`)

The external schema source (`DatabaseConnection` / `InspectorProtocol`
protocols of the source) is modelled as a record of functions; a method that
can raise returns `Except SourceError`.  The Python code contains no
`try`/`except`, so in this model every `.error` propagates. -/

/-- An error signalled by the external schema source: `NotImplementedError`
from `get_table_comment` on an unsupported dialect, or any other
connection/introspection failure. -/
inductive SourceError where
  | unsupported
  | unavailable
deriving DecidableEq

/-- One element of the list returned by `InspectorProtocol.get_columns`; the
protocol guarantees at least a `name` field. -/
structure ReflectedColumn where
  name : Str
deriving DecidableEq

/-- The external schema source consumed by `DatabaseSchemaExtractor`:
`get_usable_table_names`, `get_table_info([t], get_col_comments=True)`,
`_inspector.get_columns`, `_inspector.get_table_comment` (the latter returning
a Python dict, modelled as an association list). -/
structure DatabaseConnection where
  get_usable_table_names : List Str
  get_table_info : Str → Except SourceError Str
  get_columns : Str → Except SourceError (List ReflectedColumn)
  get_table_comment : Str → Except SourceError (List (Str × Str))

/-- `DatabaseSchemaExtractor._get_table_comment`:
`comment_dict.get("text", "No description")`; an exception from the inspector
is not caught and propagates. -/
def extract_table_comment (db : DatabaseConnection) (table_name : Str) :
    Except SourceError Str :=
  match db.get_table_comment table_name with
  | .error e => .error e
  | .ok comment_dict => .ok (dictGetD comment_dict (str "text") (str "No description"))

/-- `DatabaseSchemaExtractor._extract_table_schema`. -/
def extract_table_schema (db : DatabaseConnection) (table_name : Str) :
    Except SourceError TableSchema :=
  match db.get_table_info table_name with
  | .error e => .error e
  | .ok table_info =>
    match db.get_columns table_name with
    | .error e => .error e
    | .ok columns =>
      match extract_table_comment db table_name with
      | .error e => .error e
      | .ok table_comment =>
        .ok ⟨table_name, columns.map ReflectedColumn.name, table_info, table_comment⟩

/-- The per-table extraction loop of `extract_schemas`: first failure aborts. -/
def mapExcept {α β ε : Type} (f : α → Except ε β) : List α → Except ε (List β)
  | [] => .ok []
  | a :: as =>
    match f a with
    | .error e => .error e
    | .ok b =>
      match mapExcept f as with
      | .error e => .error e
      | .ok bs => .ok (b :: bs)

/-- `DatabaseSchemaExtractor.extract_schemas`: the argument defaults to the
source's usable tables only when it `is None` (modelled as `none`). -/
def extract_schemas (db : DatabaseConnection) (table_names : Option (List Str)) :
    Except SourceError (List TableSchema) :=
  let names := match table_names with
    | none => db.get_usable_table_names
    | some ts => ts
  mapExcept (extract_table_schema db) names

/-! ## Chunk/Document Builder

Modelled from the spec (sections 4.5 and 9): the chunk-aware
`SchemaDocumentBuilder` variant described there is not among the files under
`src/` — `src/rag/classes/db_schema_builder.py` holds only the earlier plain
variant, which reads a `table_schema` field and never emits `chunk_type` or
`chunk_order` metadata.  The definitions below follow the spec's words:
content is the record's formatted text trimmed of whitespace; metadata is
`table_name`, `columns`, the fixed `source` literal, plus `chunk_type` and
`chunk_order` exactly when present on the input record. -/

/-- An input record in mapping form: a chunk record or a whole-schema record;
`chunk_type`/`chunk_order` may be absent. -/
structure ChunkRecord where
  table_name : Str
  columns_names : List Str
  content : Str
  chunk_type : Option Str
  chunk_order : Option Nat
deriving DecidableEq

/-- A metadata value: string, list of strings, or integer. -/
inductive MetaVal where
  | strv (v : Str)
  | strList (v : List Str)
  | natv (v : Nat)
deriving DecidableEq

/-- Modelled from the spec: the metadata mapping of the produced pair. -/
def build_metadata (r : ChunkRecord) : List (String × MetaVal) :=
  [("table_name", MetaVal.strv r.table_name),
   ("columns", MetaVal.strList r.columns_names),
   ("source", MetaVal.strv (str "database_schema"))]
  ++ (match r.chunk_type with
      | some t => [("chunk_type", MetaVal.strv t)]
      | none => [])
  ++ (match r.chunk_order with
      | some o => [("chunk_order", MetaVal.natv o)]
      | none => [])

/-- Modelled from the spec: the content of the produced pair. -/
def build_document_content (r : ChunkRecord) : Str := pyStrip r.content

/-- Modelled from the spec: one content+metadata pair per record, 1:1 and
order-preserving. -/
def create_documents (records : List ChunkRecord) : List (Str × List (String × MetaVal)) :=
  records.map (fun r => (build_document_content r, build_metadata r))

/-- The label `_format_chunk_content` (or the description header) places after
the table header, by chunk type. -/
def labelFor : String → Str
  | "description" => str "DESCRIPTION:\n"
  | "schema" => str "SCHEMA:\n"
  | "columns" => str "COLUMN DESCRIPTIONS:\n"
  | "samples" => str "SAMPLE DATA:\n"
  | _ => []

/-- A schema source whose inspector raises on `get_table_comment`
(a dialect without comment support). -/
def unsupportedDb : DatabaseConnection :=
  ⟨[str "t"], fun _ => .ok [], fun _ => .ok [], fun _ => .error .unsupported⟩

/-- A schema source whose inspector returns a comment dict with no text
entry. -/
def emptyCommentDb : DatabaseConnection :=
  ⟨[], fun _ => .ok [], fun _ => .ok [], fun _ => .ok []⟩

/-- A schema source reporting exactly one usable table `a`. -/
def oneTableDb : DatabaseConnection :=
  ⟨[str "a"], fun _ => .ok (str "CREATE TABLE a (x TEXT)"), fun _ => .ok [],
    fun _ => .ok []⟩

/-! ## Helper lemmas: text primitives -/

theorem listJoin_append : ∀ l1 l2 : List Str, listJoin (l1 ++ l2) = listJoin l1 ++ listJoin l2
  | [], l2 => rfl
  | s :: l1, l2 => by simp [listJoin, listJoin_append l1 l2]

theorem mem_listJoin_length {p : Str} : ∀ {l : List Str}, p ∈ l → p.length ≤ (listJoin l).length
  | s :: rest, h => by
    rcases List.mem_cons.mp h with h | h
    · subst h; simp [listJoin]
    · have := mem_listJoin_length h
      simp only [listJoin, List.length_append]
      omega

theorem leadsWith_length : ∀ {pat s : Str}, leadsWith pat s = true → pat.length ≤ s.length
  | [], _, _ => by simp
  | _ :: _, [], h => by simp [leadsWith] at h
  | a :: pat, b :: s, h => by
    simp only [leadsWith, Bool.and_eq_true, decide_eq_true_eq] at h
    have := leadsWith_length h.2
    simp only [List.length_cons]
    omega

theorem leadsWith_ex : ∀ {pat s : Str}, leadsWith pat s = true ↔ ∃ t, s = pat ++ t := by
  intro pat
  induction pat with
  | nil => intro s; simp [leadsWith]
  | cons a pat ih =>
    intro s
    cases s with
    | nil =>
      simp only [leadsWith, List.cons_append]
      constructor
      · intro h; cases h
      · rintro ⟨t, ht⟩; cases ht
    | cons b s =>
      simp only [leadsWith, Bool.and_eq_true, decide_eq_true_eq, ih, List.cons_append]
      constructor
      · rintro ⟨rfl, t, rfl⟩; exact ⟨t, rfl⟩
      · rintro ⟨t, ht⟩
        injection ht with h1 h2
        exact ⟨h1.symm, t, h2⟩

theorem leadsWith_take {pat s : Str} {n : Nat} (h : leadsWith pat (s.take n) = true) :
    leadsWith pat s = true := by
  rcases leadsWith_ex.mp h with ⟨t, ht⟩
  refine leadsWith_ex.mpr ⟨t ++ s.drop n, ?_⟩
  rw [← List.append_assoc, ← ht, List.take_append_drop]

theorem leadsWith_refl_append (pat t : Str) : leadsWith pat (pat ++ t) = true :=
  leadsWith_ex.mpr ⟨t, rfl⟩

theorem findIdx_some : ∀ {s : Str} {pat : Str} {i : Nat}, findIdx pat s = some i →
    leadsWith pat (s.drop i) = true ∧ i + pat.length ≤ s.length := by
  intro s
  induction s with
  | nil =>
    intro pat i h
    simp only [findIdx] at h
    split at h
    · rename_i hl
      injection h with h; subst h
      exact ⟨hl, by simpa using leadsWith_length hl⟩
    · cases h
  | cons c s ih =>
    intro pat i h
    simp only [findIdx] at h
    split at h
    · rename_i hl
      injection h with h; subst h
      exact ⟨hl, by simpa using leadsWith_length hl⟩
    · rcases Option.map_eq_some'.mp h with ⟨i', hi', rfl⟩
      have := ih hi'
      refine ⟨by simpa using this.1, ?_⟩
      simp only [List.length_cons]
      omega

theorem findIdx_min : ∀ {s : Str} {pat : Str} {i : Nat}, findIdx pat s = some i →
    ∀ k, k < i → leadsWith pat (s.drop k) = false := by
  intro s
  induction s with
  | nil =>
    intro pat i h k hk
    simp only [findIdx] at h
    split at h
    · injection h with h; omega
    · cases h
  | cons c s ih =>
    intro pat i h k hk
    simp only [findIdx] at h
    split at h
    · injection h with h; omega
    · rename_i hl
      rcases Option.map_eq_some'.mp h with ⟨i', hi', rfl⟩
      cases k with
      | zero => simpa using Bool.of_not_eq_true hl
      | succ k => simpa using ih hi' k (by omega)

theorem findIdx_none_of_no_occurrence {pat s : Str}
    (h : ∀ k, leadsWith pat (s.drop k) = false) : findIdx pat s = none := by
  cases hf : findIdx pat s with
  | none => rfl
  | some i =>
    have := (findIdx_some hf).1
    rw [h i] at this
    cases this

/-! ## Helper lemmas: `pyStrip` -/

theorem dropWhile_dropWhile (p : Char → Bool) :
    ∀ l : Str, (l.dropWhile p).dropWhile p = l.dropWhile p := by
  intro l
  induction l with
  | nil => rfl
  | cons c l ih =>
    by_cases hc : p c
    · simp [List.dropWhile_cons, hc, ih]
    · simp [List.dropWhile_cons, hc]

theorem dropWhile_of_append_eq {p : Char → Bool} {y z : Str}
    (h : (y ++ z).dropWhile p = y ++ z) : y.dropWhile p = y := by
  cases y with
  | nil => rfl
  | cons c y =>
    have hc : p c = false := by
      by_contra hc
      have hc' : p c = true := by
        cases hpc : p c
        · exact absurd hpc hc
        · rfl
      rw [List.cons_append, List.dropWhile_cons_of_pos (by simp [hc'])] at h
      have hlen := congrArg List.length h
      have hsub : List.Sublist ((y ++ z).dropWhile p) (y ++ z) :=
        List.dropWhile_sublist p
      have := hsub.length_le
      simp only [List.length_cons] at hlen
      omega
    simp [List.dropWhile_cons, hc]

theorem pyStrip_no_leading (s : Str) : (pyStrip s).dropWhile isPySpace = pyStrip s := by
  unfold pyStrip dropTrailSpace
  set t := s.dropWhile isPySpace with ht
  have hA : t.dropWhile isPySpace = t := by rw [ht]; exact dropWhile_dropWhile _ s
  have hdec : t = (t.reverse.dropWhile isPySpace).reverse
      ++ (t.reverse.takeWhile isPySpace).reverse := by
    have h0 : t.reverse.takeWhile isPySpace ++ t.reverse.dropWhile isPySpace
        = t.reverse := by simp
    have h1 := congrArg List.reverse h0
    rw [List.reverse_append, List.reverse_reverse] at h1
    exact h1.symm
  have hA' : ((t.reverse.dropWhile isPySpace).reverse
        ++ (t.reverse.takeWhile isPySpace).reverse).dropWhile isPySpace
      = (t.reverse.dropWhile isPySpace).reverse
        ++ (t.reverse.takeWhile isPySpace).reverse := by
    rw [← hdec]
    exact hA
  exact dropWhile_of_append_eq hA'

theorem pyStrip_idem (s : Str) : pyStrip (pyStrip s) = pyStrip s := by
  conv_lhs => rw [pyStrip, pyStrip_no_leading]
  rw [pyStrip, dropTrailSpace, dropTrailSpace, List.reverse_reverse,
    dropWhile_dropWhile]

/-! ## Helper lemmas: the Recursive Bounded Splitter -/

theorem splitKeepSepGo_join (sep : Str) :
    ∀ (fuel : Nat) (r : Str), listJoin (splitKeepSepGo sep fuel r) = r := by
  intro fuel
  induction fuel with
  | zero => intro r; simp [splitKeepSepGo, listJoin]
  | succ fuel ih =>
    intro r
    simp only [splitKeepSepGo]
    cases h : findIdx sep (r.drop sep.length) with
    | none => simp [listJoin]
    | some j => simp [listJoin, ih, List.take_append_drop]

theorem splitKeepSep_join (sep s : Str) : listJoin (splitKeepSep sep s) = s := by
  simp only [splitKeepSep]
  cases h : findIdx sep s with
  | none => simp [listJoin]
  | some i => simp [listJoin, splitKeepSepGo_join, List.take_append_drop]

theorem charSegs_join (s : Str) : listJoin (charSegs s) = s := by
  induction s with
  | nil => rfl
  | cons c s ih => simpa [charSegs, listJoin] using ih

theorem packLoop_join (recur : Str → List Str) (chunk_size : Nat)
    (hrec : ∀ x, listJoin (recur x) = x) :
    ∀ (segs : List Str) (buf : Str),
      listJoin (packLoop recur chunk_size segs buf) = buf ++ listJoin segs := by
  intro segs
  induction segs with
  | nil =>
    intro buf
    simp only [packLoop, listJoin]
    by_cases hb : buf.isEmpty
    · simp [hb, List.isEmpty_iff.mp hb, listJoin]
    · simp [hb, listJoin]
  | cons seg segs ih =>
    intro buf
    simp only [packLoop]
    by_cases h1 : seg.length ≤ chunk_size
    · simp only [h1, if_true]
      by_cases h2 : buf.length + seg.length ≤ chunk_size
      · simp [h2, ih, listJoin, List.append_assoc]
      · simp [h2, ih, listJoin, List.append_assoc]
    · simp only [h1, if_false]
      by_cases hb : buf.isEmpty
      · simp [hb, List.isEmpty_iff.mp hb, listJoin_append, hrec, ih, listJoin]
      · simp [hb, listJoin_append, hrec, ih, listJoin, List.append_assoc]

theorem recSplit_join (chunk_size : Nat) :
    ∀ (seps : List Str) (s : Str), listJoin (recSplit chunk_size seps s) = s := by
  intro seps
  induction seps with
  | nil => intro s; simp [recSplit, listJoin]
  | cons sep rest ih =>
    intro s
    simp only [recSplit]
    rw [packLoop_join _ _ ih]
    by_cases hsep : sep.isEmpty
    · simp [hsep, charSegs_join]
    · simp [hsep, splitKeepSep_join]

theorem applyOverlap_zero : ∀ parts : List Str, applyOverlap 0 parts = parts := by
  intro parts
  cases parts with
  | nil => rfl
  | cons p ps =>
    simp only [applyOverlap, List.cons.injEq, true_and]
    induction ps generalizing p with
    | nil => rfl
    | cons q qs ih => simpa [applyOverlapGo] using ih q

theorem mem_splitKeepSep_length {sep s p : Str} (h : p ∈ splitKeepSep sep s) :
    p.length ≤ s.length := by
  have := mem_listJoin_length h
  rwa [splitKeepSep_join] at this

theorem mem_charSegs_length {s p : Str} (h : p ∈ charSegs s) : p.length = 1 := by
  rcases List.mem_map.mp h with ⟨c, _, rfl⟩
  rfl

theorem packLoop_mem (recur : Str → List Str) (chunk_size : Nat) (Q : Str → Prop)
    (hQ : ∀ b : Str, b.length ≤ chunk_size → Q b) :
    ∀ (segs : List Str) (buf : Str), buf.length ≤ chunk_size →
      (∀ seg ∈ segs, chunk_size < seg.length → ∀ p ∈ recur seg, Q p) →
      ∀ p ∈ packLoop recur chunk_size segs buf, Q p := by
  intro segs
  induction segs with
  | nil =>
    intro buf hbuf _ p hp
    simp only [packLoop] at hp
    split at hp
    · cases hp
    · rcases List.mem_singleton.mp hp with rfl
      exact hQ _ hbuf
  | cons seg segs ih =>
    intro buf hbuf hseg p hp
    simp only [packLoop] at hp
    by_cases h1 : seg.length ≤ chunk_size
    · simp only [h1, if_true] at hp
      by_cases h2 : buf.length + seg.length ≤ chunk_size
      · simp only [h2, if_true] at hp
        exact ih (buf ++ seg) (by simpa using h2)
          (fun g hg => hseg g (List.mem_cons_of_mem _ hg)) p hp
      · simp only [h2, if_false] at hp
        rcases List.mem_cons.mp hp with rfl | hp
        · exact hQ _ hbuf
        · exact ih seg h1 (fun g hg => hseg g (List.mem_cons_of_mem _ hg)) p hp
    · simp only [h1, if_false, List.mem_append] at hp
      rcases hp with hp | hp
      · rcases hp with hp | hp
        · split at hp
          · cases hp
          · rcases List.mem_singleton.mp hp with rfl
            exact hQ _ hbuf
        · exact hseg seg (List.mem_cons_self _ _) (by omega) p hp
      · exact ih [] (by simp) (fun g hg => hseg g (List.mem_cons_of_mem _ hg)) p hp

theorem recSplit_bound (chunk_size : Nat) :
    ∀ (seps : List Str) (s p : Str), p ∈ recSplit chunk_size seps s →
      p.length ≤ chunk_size ∨ p.length ≤ s.length := by
  intro seps
  induction seps with
  | nil =>
    intro s p hp
    rcases List.mem_singleton.mp hp with rfl
    right; exact Nat.le_refl _
  | cons sep rest ih =>
    intro s p hp
    simp only [recSplit] at hp
    refine packLoop_mem _ _ (fun x => x.length ≤ chunk_size ∨ x.length ≤ s.length)
      (fun b hb => Or.inl hb) _ [] (by simp) ?_ p hp
    intro seg hseg hover q hq
    have hlen : seg.length ≤ s.length := by
      by_cases hsep : sep.isEmpty
      · simp only [hsep, if_true] at hseg
        have := mem_charSegs_length hseg
        have hne : s ≠ [] := by
          rintro rfl
          simp [charSegs] at hseg
        have : 1 ≤ s.length := by
          cases s
          · exact absurd rfl hne
          · simp
        omega
      · simp only [hsep, if_false] at hseg
        exact mem_splitKeepSep_length hseg
    rcases ih seg q hq with h | h
    · exact Or.inl h
    · exact Or.inr (Nat.le_trans h hlen)

theorem recSplit_parts_bound (chunk_size : Nat) :
    ∀ (seps : List Str), ([] : Str) ∈ seps →
      ∀ (s p : Str), p ∈ recSplit chunk_size seps s →
        p.length ≤ chunk_size ∨ p.length ≤ 1 := by
  intro seps
  induction seps with
  | nil => intro h; cases h
  | cons sep rest ih =>
    intro hmem s p hp
    simp only [recSplit] at hp
    by_cases hsep : sep.isEmpty
    · simp only [hsep, if_true] at hp
      refine packLoop_mem _ _ (fun x => x.length ≤ chunk_size ∨ x.length ≤ 1)
        (fun b hb => Or.inl hb) _ [] (by simp) ?_ p hp
      intro seg hseg _ q hq
      have h1 := mem_charSegs_length hseg
      rcases recSplit_bound chunk_size rest seg q hq with h | h
      · exact Or.inl h
      · exact Or.inr (by omega)
    · simp only [hsep, if_false] at hp
      have hrest : ([] : Str) ∈ rest := by
        rcases List.mem_cons.mp hmem with h | h
        · subst h; simp at hsep
        · exact h
      refine packLoop_mem _ _ (fun x => x.length ≤ chunk_size ∨ x.length ≤ 1)
        (fun b hb => Or.inl hb) _ [] (by simp) ?_ p hp
      intro seg _ _ q hq
      exact ih hrest seg q hq

/-- C5: every part emitted by the Recursive Bounded Splitter fits within the
size bound, except an indivisible single-character unit that alone exceeds
it.  (Modelled from the spec, overlap 0 as in this system's configuration.) -/
theorem c5_splitter_bound (chunk_size : Nat) (s p : Str)
    (hp : p ∈ splitText chunk_size 0 s) :
    p.length ≤ chunk_size ∨ p.length ≤ 1 := by
  rw [splitText, applyOverlap_zero] at hp
  exact recSplit_parts_bound chunk_size separators (by simp [separators]) s p hp

/-- Witness for C5 at a concrete input: with size bound 1 the text `ab` splits
into parts among which `a` appears, and its length obeys the bound. -/
theorem c5_splitter_bound_witness :
    (str "a") ∈ splitText 1 0 (str "ab")
      ∧ ((str "a").length ≤ 1 ∨ (str "a").length ≤ 1) :=
  ⟨by decide, c5_splitter_bound 1 (str "ab") (str "a") (by decide)⟩

/-- C6: with overlap 0, concatenating the ordered parts produced by the
Recursive Bounded Splitter on the configured separators reconstructs the
input text exactly.  (Modelled from the spec.) -/
theorem c6_splitter_reconstruction (chunk_size : Nat) (s : Str) :
    listJoin (splitText chunk_size 0 s) = s := by
  rw [splitText, applyOverlap_zero, recSplit_join]

/-! ## Helper lemmas: the Block Detector -/

theorem reSplitAux_join : ∀ (fuel : Nat) (s : Str), listJoin (reSplitAux fuel s) = s := by
  intro fuel
  induction fuel with
  | zero => intro s; simp [reSplitAux, listJoin]
  | succ fuel ih =>
    intro s
    simp only [reSplitAux]
    cases h1 : findIdx (str "/*") s with
    | none => simp [h1, listJoin]
    | some i =>
      cases h2 : findIdx (str "*/") (s.drop (i + 2)) with
      | none => simp [h1, h2, listJoin]
      | some j =>
        simp only [h1, h2, listJoin, ih, List.append_nil]
        have h3 : i + j + 4 = i + (j + 4) := by omega
        rw [h3, ← List.drop_drop, List.take_append_drop, List.take_append_drop]

theorem no_occurrence_in_take {pat s : Str} {i : Nat} (hpat : pat ≠ [])
    (hi : findIdx pat s = some i) (k : Nat) :
    leadsWith pat ((s.take i).drop k) = false := by
  cases hlw : leadsWith pat ((s.take i).drop k) with
  | false => rfl
  | true =>
    exfalso
    rw [List.drop_take] at hlw
    have hs : leadsWith pat (s.drop k) = true := leadsWith_take hlw
    have hlen := leadsWith_length hlw
    have h0 : 0 < pat.length := by
      cases pat with
      | nil => exact absurd rfl hpat
      | cons a p => simp
    have hki : k < i := by
      have hmin := List.length_take (i - k) (s.drop k)
      rw [hmin] at hlen
      omega
    have := findIdx_min hi k hki
    rw [hs] at this
    cases this

theorem reSplitAux_segments :
    ∀ (fuel : Nat) (s : Str), s.length ≤ fuel →
      ∀ (k : Nat) (p : Str), (reSplitAux fuel s)[k]? = some p →
        (k % 2 = 1 →
          ∃ mid, p = str "/*" ++ mid ++ str "*/"
            ∧ containsSubstr (str "*/") mid = false)
      ∧ (k % 2 = 0 → hasCommentBlock p = false) := by
  intro fuel
  induction fuel with
  | zero =>
    intro s hs k p hk
    have hnil : s = [] := by
      cases s with
      | nil => rfl
      | cons c s => simp at hs
    subst hnil
    simp only [reSplitAux] at hk
    cases k with
    | zero =>
      simp only [List.getElem?_cons_zero, Option.some.injEq] at hk
      subst hk
      exact ⟨fun h => absurd h (by decide), fun _ => by decide⟩
    | succ k => simp at hk
  | succ fuel ih =>
    intro s hs k p hk
    simp only [reSplitAux] at hk
    cases h1 : findIdx (str "/*") s with
    | none =>
      simp only [h1] at hk
      cases k with
      | zero =>
        simp only [List.getElem?_cons_zero, Option.some.injEq] at hk
        subst hk
        refine ⟨fun h => absurd h (by decide), fun _ => ?_⟩
        simp [hasCommentBlock, h1]
      | succ k => simp at hk
    | some i =>
      simp only [h1] at hk
      cases h2 : findIdx (str "*/") (s.drop (i + 2)) with
      | none =>
        simp only [h2] at hk
        cases k with
        | zero =>
          simp only [List.getElem?_cons_zero, Option.some.injEq] at hk
          subst hk
          refine ⟨fun h => absurd h (by decide), fun _ => ?_⟩
          simp [hasCommentBlock, h1, containsSubstr, h2]
        | succ k => simp at hk
      | some j =>
        simp only [h2] at hk
        have hfacts1 := findIdx_some h1
        have hfacts2 := findIdx_some h2
        match k with
        | 0 =>
          simp only [List.getElem?_cons_zero, Option.some.injEq] at hk
          subst hk
          refine ⟨fun h => absurd h (by decide), fun _ => ?_⟩
          have hnone : findIdx (str "/*") (s.take i) = none :=
            findIdx_none_of_no_occurrence (no_occurrence_in_take (by decide) h1)
          simp [hasCommentBlock, hnone]
        | 1 =>
          simp only [List.getElem?_cons_succ, List.getElem?_cons_zero,
            Option.some.injEq] at hk
          subst hk
          refine ⟨fun _ => ?_, fun h => absurd h (by decide)⟩
          -- decompose the matched segment
          rcases leadsWith_ex.mp hfacts1.1 with ⟨r', hr'⟩
          have hr : r' = s.drop (i + 2) := by
            have := congrArg (List.drop 2) hr'
            rw [List.drop_drop] at this
            have h4 : (str "/*" ++ r').drop 2 = r' := by
              rw [List.drop_append_eq_append_drop]
              simp [str]
            rw [h4] at this
            exact this.symm
          subst hr
          set r := s.drop (i + 2) with hrdef
          refine ⟨r.take j, ?_, ?_⟩
          · rw [hr']
            have h5 : j + 4 = (str "/*").length + (j + 2) := by
              have h5a : (str "/*").length = 2 := rfl
              omega
            rw [h5, List.take_append]
            have h6 : r.take (j + 2) = r.take j ++ (r.drop j).take 2 := by
              have := List.drop_take_append_drop r 0 j
              simp only [List.drop_zero, Nat.zero_add] at this
              calc r.take (j + 2)
                  = (r.take j ++ r.drop j).take (j + 2) := by rw [List.take_append_drop]
                _ = r.take j ++ (r.drop j).take (j + 2 - (r.take j).length) := by
                    rw [List.take_append_eq_append_take]
                    congr 1
                    exact List.take_of_length_le (by
                      have := List.length_take j r
                      omega)
                _ = r.take j ++ (r.drop j).take 2 := by
                    congr 2
                    have hj : j ≤ r.length := by
                      have := hfacts2.2
                      omega
                    rw [List.length_take]
                    omega
            rw [h6]
            rcases leadsWith_ex.mp hfacts2.1 with ⟨r2, hr2⟩
            have h7 : (r.drop j).take 2 = str "*/" := by
              rw [hr2]
              have : (2 : Nat) = (str "*/").length := by simp [str]
              rw [this, List.take_left]
            rw [h7, List.append_assoc]
          · have hnone : findIdx (str "*/") (r.take j) = none :=
              findIdx_none_of_no_occurrence (no_occurrence_in_take (by decide) h2)
            simp [containsSubstr, hnone]
        | (n + 2) =>
          simp only [List.getElem?_cons_succ] at hk
          have hlen : (s.drop (i + j + 4)).length ≤ fuel := by
            have h6 := hfacts1.2
            rw [List.length_drop]
            omega
          have := ih (s.drop (i + j + 4)) hlen n p hk
          refine ⟨fun ho => this.1 ?_, fun he => this.2 ?_⟩
          · omega
          · omega

theorem buildBlocks_eq : ∀ l : List Str,
    buildBlocks l
      = (l.filter (fun p => !(pyStrip p).isEmpty)).map
          (fun p => (pyStrip p, detect_block_type p)) := by
  intro l
  induction l with
  | nil => rfl
  | cons part parts ih =>
    simp only [buildBlocks, List.filter_cons]
    by_cases h : (pyStrip part).isEmpty
    · simp [h, ih]
    · simp [h, ih]

/-- C4: the Block Detector splits on non-greedy comment blocks as capturing
delimiters (segments joined in source order reconstruct the text; delimiter
segments are exactly `/\x2a ... \x2a/` blocks with no earlier close marker;
non-delimiter segments hold no comment block), discards segments empty after
trimming, and classifies case-insensitively in priority order
schema → columns → samples → general; in particular both
`CREATE TABLE foo (...)` and `create table foo (...)` classify as SCHEMA. -/
theorem c4_block_detector (text : Str) :
    listJoin (reSplitCommentBlocks text) = text
  ∧ (∀ (k : Nat) (p : Str), (reSplitCommentBlocks text)[k]? = some p →
      (k % 2 = 1 → ∃ mid, p = str "/*" ++ mid ++ str "*/"
          ∧ containsSubstr (str "*/") mid = false)
    ∧ (k % 2 = 0 → hasCommentBlock p = false))
  ∧ split_by_comment_blocks text
      = ((reSplitCommentBlocks text).filter
          (fun p => !(pyStrip p).isEmpty)).map
          (fun p => (pyStrip p, detect_block_type p))
  ∧ (∀ t : Str,
        (detect_block_type t = ChunkType.SCHEMA.value
          ↔ containsSubstr (str "create table") (lowerStr t) = true)
      ∧ (detect_block_type t = ChunkType.COLUMNS.value
          ↔ containsSubstr (str "create table") (lowerStr t) = false
            ∧ containsSubstr (str "column comments:") (lowerStr t) = true)
      ∧ (detect_block_type t = ChunkType.SAMPLES.value
          ↔ containsSubstr (str "create table") (lowerStr t) = false
            ∧ containsSubstr (str "column comments:") (lowerStr t) = false
            ∧ containsSubstr (str "rows from") (lowerStr t) = true)
      ∧ (detect_block_type t = ChunkType.GENERAL.value
          ↔ containsSubstr (str "create table") (lowerStr t) = false
            ∧ containsSubstr (str "column comments:") (lowerStr t) = false
            ∧ containsSubstr (str "rows from") (lowerStr t) = false))
  ∧ detect_block_type (str "CREATE TABLE foo (...)") = ChunkType.SCHEMA.value
  ∧ detect_block_type (str "create table foo (...)") = ChunkType.SCHEMA.value := by
  refine ⟨reSplitAux_join text.length text,
    reSplitAux_segments text.length text (Nat.le_refl _),
    buildBlocks_eq (reSplitCommentBlocks text), ?_, by decide, by decide⟩
  intro t
  by_cases hc1 : containsSubstr (str "create table") (lowerStr t) = true
  · simp [detect_block_type, ChunkType.value, hc1]
  · rw [Bool.not_eq_true] at hc1
    by_cases hc2 : containsSubstr (str "column comments:") (lowerStr t) = true
    · simp [detect_block_type, ChunkType.value, hc1, hc2]
    · rw [Bool.not_eq_true] at hc2
      by_cases hc3 : containsSubstr (str "rows from") (lowerStr t) = true
      · simp [detect_block_type, ChunkType.value, hc1, hc2, hc3]
      · rw [Bool.not_eq_true] at hc3
        simp [detect_block_type, ChunkType.value, hc1, hc2, hc3]

/-- Witness for C4 at a concrete input: in `a\n/\x2ax\x2a/\nb` the captured
delimiter segment is the comment block `/\x2ax\x2a/`. -/
theorem c4_block_detector_witness :
    ∃ mid, (str "/*x*/") = str "/*" ++ mid ++ str "*/"
      ∧ containsSubstr (str "*/") mid = false :=
  ((c4_block_detector (str "a\n/*x*/\nb")).2.1 1 (str "/*x*/") (by decide)).1 (by decide)

/-! ## Helper lemmas: the Schema Chunker -/

theorem chunksFromParts_orders (schema : TableSchema) :
    ∀ (parts : List (Str × String)) (start : Nat),
      (chunksFromParts schema parts start).map SchemaChunk.chunk_order
        = List.range' start parts.length := by
  intro parts
  induction parts with
  | nil => intro start; rfl
  | cons pr rest ih =>
    intro start
    cases pr with
    | mk part block_type =>
      simp only [chunksFromParts, List.map_cons, List.length_cons,
        List.range'_succ, ih]

theorem chunksFromParts_length (schema : TableSchema) :
    ∀ (parts : List (Str × String)) (start : Nat),
      (chunksFromParts schema parts start).length = parts.length := by
  intro parts
  have := chunksFromParts_orders schema parts
  intro start
  have h := congrArg List.length (this start)
  simpa using h

theorem mem_chunksFromParts {schema : TableSchema} :
    ∀ {parts : List (Str × String)} {start : Nat} {c : SchemaChunk},
      c ∈ chunksFromParts schema parts start →
      ∃ pr ∈ parts,
        c.content = format_chunk_content schema.table_name pr.1 pr.2
        ∧ c.chunk_type = pr.2 := by
  intro parts
  induction parts with
  | nil => intro start c h; cases h
  | cons pr rest ih =>
    intro start c h
    cases pr with
    | mk part block_type =>
      simp only [chunksFromParts, List.mem_cons] at h
      rcases h with rfl | h
      · exact ⟨(part, block_type), List.mem_cons_self _ _, rfl, rfl⟩
      · rcases ih h with ⟨pr', hmem, hc⟩
        exact ⟨pr', List.mem_cons_of_mem _ hmem, hc⟩

theorem mem_blockParts {split_text : Str → List Str} :
    ∀ {blocks : List (Str × String)} {pr : Str × String},
      pr ∈ blockParts split_text blocks → ∃ b ∈ blocks, pr.2 = b.2 := by
  intro blocks
  induction blocks with
  | nil => intro pr h; cases h
  | cons b rest ih =>
    intro pr h
    cases b with
    | mk block_text block_type =>
      simp only [blockParts, List.mem_append, List.mem_map] at h
      rcases h with ⟨part, _, rfl⟩ | h
      · exact ⟨(block_text, block_type), List.mem_cons_self _ _, rfl⟩
      · rcases ih h with ⟨b', hmem, hb⟩
        exact ⟨b', List.mem_cons_of_mem _ hmem, hb⟩

theorem detect_block_type_cases (t : Str) :
    detect_block_type t = ChunkType.SCHEMA.value
    ∨ detect_block_type t = ChunkType.COLUMNS.value
    ∨ detect_block_type t = ChunkType.SAMPLES.value
    ∨ detect_block_type t = ChunkType.GENERAL.value := by
  simp only [detect_block_type]
  split
  · exact Or.inl rfl
  · split
    · exact Or.inr (Or.inl rfl)
    · split
      · exact Or.inr (Or.inr (Or.inl rfl))
      · exact Or.inr (Or.inr (Or.inr rfl))

theorem mem_split_by_comment_blocks {text : Str} {b : Str × String}
    (h : b ∈ split_by_comment_blocks text) :
    ∃ part, b = (pyStrip part, detect_block_type part) := by
  rw [split_by_comment_blocks, buildBlocks_eq] at h
  rcases List.mem_map.mp h with ⟨part, _, rfl⟩
  exact ⟨part, rfl⟩

theorem block_type_ne_description {text : Str} {b : Str × String}
    (h : b ∈ split_by_comment_blocks text) : b.2 ≠ ChunkType.DESCRIPTION.value := by
  rcases mem_split_by_comment_blocks h with ⟨part, rfl⟩
  rcases detect_block_type_cases part with h4 | h4 | h4 | h4 <;>
    simp [h4, ChunkType.value]

theorem blockParts_type_ne_description {split_text : Str → List Str} {text : Str}
    {pr : Str × String}
    (h : pr ∈ blockParts split_text (split_by_comment_blocks text)) :
    pr.2 ≠ ChunkType.DESCRIPTION.value := by
  rcases mem_blockParts h with ⟨b, hmem, hb⟩
  rw [hb]
  exact block_type_ne_description hmem

/-- C2: for every `TableSchema` and every `(chunk_size, chunk_overlap)`
configuration, the `chunk_order` values of the produced chunk sequence are
exactly the contiguous sequence `1..N` (`List.range' 1 N`), counted across
the whole table. -/
theorem c2_chunk_order_contiguous (schema : TableSchema) (chunk_size chunk_overlap : Nat) :
    (split_single_schema (splitText chunk_size chunk_overlap) schema).map
        SchemaChunk.chunk_order
      = List.range' 1
          (split_single_schema (splitText chunk_size chunk_overlap) schema).length := by
  simp only [split_single_schema]
  split
  · simp only [List.map_cons, chunksFromParts_orders, List.length_cons,
      chunksFromParts_length, List.range'_succ]
  · simp only [chunksFromParts_orders, chunksFromParts_length]

/-- C3: a DESCRIPTION chunk is emitted exactly when the table comment is
non-empty and differs from the sentinel `No description`; when emitted it is
the head chunk, with order 1, type `description` and the formatted content;
with the sentinel no description chunk appears and the first chunk (when one
exists) has order 1. -/
theorem c3_description_chunk (schema : TableSchema) (chunk_size chunk_overlap : Nat) :
    ((schema.table_comment ≠ [] ∧ schema.table_comment ≠ str "No description") →
      (split_single_schema (splitText chunk_size chunk_overlap) schema).head?
        = some ⟨schema.table_name, schema.columns_names,
            str "TABLE: " ++ schema.table_name ++ str "\n\nDESCRIPTION:\n"
              ++ schema.table_comment,
            ChunkType.DESCRIPTION.value, 1⟩
      ∧ ∀ c ∈ (split_single_schema (splitText chunk_size chunk_overlap) schema).tail,
          c.chunk_type ≠ ChunkType.DESCRIPTION.value)
  ∧ (¬(schema.table_comment ≠ [] ∧ schema.table_comment ≠ str "No description") →
      (∀ c ∈ split_single_schema (splitText chunk_size chunk_overlap) schema,
          c.chunk_type ≠ ChunkType.DESCRIPTION.value)
      ∧ ∀ c, (split_single_schema (splitText chunk_size chunk_overlap) schema).head?
          = some c → c.chunk_order = 1) := by
  constructor
  · intro hcond
    simp only [split_single_schema]
    rw [if_pos hcond]
    refine ⟨rfl, ?_⟩
    intro c hc
    rcases mem_chunksFromParts (by simpa using hc) with ⟨pr, hmem, _, htype⟩
    rw [htype]
    exact blockParts_type_ne_description hmem
  · intro hcond
    simp only [split_single_schema]
    rw [if_neg hcond]
    constructor
    · intro c hc
      rcases mem_chunksFromParts hc with ⟨pr, hmem, _, htype⟩
      rw [htype]
      exact blockParts_type_ne_description hmem
    · intro c hc
      have horders := chunksFromParts_orders schema
        (blockParts (splitText chunk_size chunk_overlap)
          (split_by_comment_blocks schema.raw_table_info)) 1
      cases hl : chunksFromParts schema
          (blockParts (splitText chunk_size chunk_overlap)
            (split_by_comment_blocks schema.raw_table_info)) 1 with
      | nil => rw [hl] at hc; cases hc
      | cons c0 cs =>
        rw [hl] at hc
        simp only [List.head?_cons, Option.some.injEq] at hc
        subst hc
        rw [hl] at horders
        have hlen : (blockParts (splitText chunk_size chunk_overlap)
            (split_by_comment_blocks schema.raw_table_info)).length
            = cs.length + 1 := by
          have := chunksFromParts_length schema
            (blockParts (splitText chunk_size chunk_overlap)
              (split_by_comment_blocks schema.raw_table_info)) 1
          rw [hl] at this
          simpa using this.symm
        rw [hlen, List.range'_succ] at horders
        simpa using congrArg List.head? horders

/-- Witness for C3 at a concrete input: a comment that is neither empty nor
the sentinel yields the description chunk at the head. -/
theorem c3_description_chunk_witness :
    (split_single_schema (splitText 800 0)
        ⟨str "customers", [], [], str "Stores customer records"⟩).head?
      = some ⟨str "customers", [],
          str "TABLE: customers\n\nDESCRIPTION:\nStores customer records",
          ChunkType.DESCRIPTION.value, 1⟩ :=
  ((c3_description_chunk ⟨str "customers", [], [], str "Stores customer records"⟩
    800 0).1 (by decide)).1

/-- C9: the Schema Chunker is deterministic — two runs on field-wise equal
`TableSchema` values with the same configuration produce identical chunk
sequences (same length and equal fields at every position). -/
theorem c9_chunker_deterministic (s1 s2 : TableSchema) (chunk_size chunk_overlap : Nat)
    (h1 : s1.table_name = s2.table_name) (h2 : s1.columns_names = s2.columns_names)
    (h3 : s1.raw_table_info = s2.raw_table_info)
    (h4 : s1.table_comment = s2.table_comment) :
    split_single_schema (splitText chunk_size chunk_overlap) s1
      = split_single_schema (splitText chunk_size chunk_overlap) s2
  ∧ (split_single_schema (splitText chunk_size chunk_overlap) s1).length
      = (split_single_schema (splitText chunk_size chunk_overlap) s2).length
  ∧ ∀ i : Nat,
      ((split_single_schema (splitText chunk_size chunk_overlap) s1)[i]?).map
          SchemaChunk.table_name
        = ((split_single_schema (splitText chunk_size chunk_overlap) s2)[i]?).map
          SchemaChunk.table_name
    ∧ ((split_single_schema (splitText chunk_size chunk_overlap) s1)[i]?).map
          SchemaChunk.columns_names
        = ((split_single_schema (splitText chunk_size chunk_overlap) s2)[i]?).map
          SchemaChunk.columns_names
    ∧ ((split_single_schema (splitText chunk_size chunk_overlap) s1)[i]?).map
          SchemaChunk.content
        = ((split_single_schema (splitText chunk_size chunk_overlap) s2)[i]?).map
          SchemaChunk.content
    ∧ ((split_single_schema (splitText chunk_size chunk_overlap) s1)[i]?).map
          SchemaChunk.chunk_type
        = ((split_single_schema (splitText chunk_size chunk_overlap) s2)[i]?).map
          SchemaChunk.chunk_type
    ∧ ((split_single_schema (splitText chunk_size chunk_overlap) s1)[i]?).map
          SchemaChunk.chunk_order
        = ((split_single_schema (splitText chunk_size chunk_overlap) s2)[i]?).map
          SchemaChunk.chunk_order := by
  have hss : s1 = s2 := by
    cases s1
    cases s2
    dsimp only at h1 h2 h3 h4
    subst h1; subst h2; subst h3; subst h4
    rfl
  subst hss
  exact ⟨rfl, rfl, fun i => ⟨rfl, rfl, rfl, rfl, rfl⟩⟩

/-- Witness for C9 at a concrete input. -/
theorem c9_chunker_deterministic_witness :
    split_single_schema (splitText 800 0)
        ⟨str "t", [str "a"], str "CREATE TABLE t (a TEXT)", str "No description"⟩
      = split_single_schema (splitText 800 0)
        ⟨str "t", [str "a"], str "CREATE TABLE t (a TEXT)", str "No description"⟩ :=
  (c9_chunker_deterministic
    ⟨str "t", [str "a"], str "CREATE TABLE t (a TEXT)", str "No description"⟩
    ⟨str "t", [str "a"], str "CREATE TABLE t (a TEXT)", str "No description"⟩
    800 0 rfl rfl rfl rfl).1

theorem append_label_split (X body L H Lab : Str) (hLit : H ++ Lab = L) :
    X ++ L ++ body = X ++ H ++ Lab ++ body := by
  rw [List.append_assoc X H Lab, hLit]

theorem format_chunk_content_shape (name content : Str) (ty : String)
    (h : ty = ChunkType.SCHEMA.value ∨ ty = ChunkType.COLUMNS.value
      ∨ ty = ChunkType.SAMPLES.value ∨ ty = ChunkType.GENERAL.value) :
    format_chunk_content name content ty
      = str "TABLE: " ++ name ++ str "\n\n" ++ labelFor ty ++ pyStrip content := by
  rcases h with rfl | rfl | rfl | rfl
  · have h0 : format_chunk_content name content ChunkType.SCHEMA.value
        = str "TABLE: " ++ name ++ str "\n\nSCHEMA:\n" ++ pyStrip content := rfl
    rw [h0]
    exact append_label_split (str "TABLE: " ++ name) (pyStrip content) _ _ _ rfl
  · have h0 : format_chunk_content name content ChunkType.COLUMNS.value
        = str "TABLE: " ++ name ++ str "\n\nCOLUMN DESCRIPTIONS:\n"
            ++ pyStrip content := rfl
    rw [h0]
    exact append_label_split (str "TABLE: " ++ name) (pyStrip content) _ _ _ rfl
  · have h0 : format_chunk_content name content ChunkType.SAMPLES.value
        = str "TABLE: " ++ name ++ str "\n\nSAMPLE DATA:\n" ++ pyStrip content := rfl
    rw [h0]
    exact append_label_split (str "TABLE: " ++ name) (pyStrip content) _ _ _ rfl
  · have h0 : format_chunk_content name content ChunkType.GENERAL.value
        = str "TABLE: " ++ name ++ str "\n\n" ++ pyStrip content := rfl
    rw [h0]
    exact append_label_split (str "TABLE: " ++ name) (pyStrip content) _ _ _ rfl

theorem c10_block_chunk_shape {schema : TableSchema} {split_text : Str → List Str}
    {start : Nat} {c : SchemaChunk}
    (hc : c ∈ chunksFromParts schema
      (blockParts split_text (split_by_comment_blocks schema.raw_table_info)) start) :
    ∃ body,
      c.content = str "TABLE: " ++ schema.table_name ++ str "\n\n"
        ++ labelFor c.chunk_type ++ body
    ∧ pyStrip body = body
    ∧ c.chunk_type ≠ ChunkType.DESCRIPTION.value := by
  rcases mem_chunksFromParts hc with ⟨pr, hmem, hcontent, htype⟩
  rcases mem_blockParts hmem with ⟨b, hb, hbtype⟩
  rcases mem_split_by_comment_blocks hb with ⟨part0, rfl⟩
  have hcases : pr.2 = ChunkType.SCHEMA.value ∨ pr.2 = ChunkType.COLUMNS.value
      ∨ pr.2 = ChunkType.SAMPLES.value ∨ pr.2 = ChunkType.GENERAL.value := by
    rw [hbtype]
    exact detect_block_type_cases part0
  refine ⟨pyStrip pr.1, ?_, pyStrip_idem pr.1, ?_⟩
  · rw [hcontent, htype]
    exact format_chunk_content_shape schema.table_name pr.1 pr.2 hcases
  · rw [htype]
    rcases hcases with h4 | h4 | h4 | h4 <;> rw [h4] <;> decide

/-- C10 counterexample: on the table comment `x ` (trailing blank) the
description chunk's content is the verbatim comment after the label line —
its body keeps the trailing whitespace, contradicting the claim that the text
following the header and label is stripped for description chunks too. -/
theorem c10_description_not_stripped_counterexample :
    (split_single_schema (splitText 800 0) ⟨str "t", [], [], str "x "⟩).map
        SchemaChunk.content = [str "TABLE: t\n\nDESCRIPTION:\nx "]
  ∧ pyStrip (str "x ") ≠ str "x " := by
  constructor
  · decide
  · decide

/-- C10 (amended): every chunk's content starts with the header
`TABLE: <name>` followed by a blank line and the type label; the text after
the label is stripped of leading/trailing whitespace for the four block chunk
types, while a description chunk's body is the verbatim table comment (which
may carry whitespace). -/
theorem c10_header_amended (schema : TableSchema) (chunk_size chunk_overlap : Nat) :
    ∀ c ∈ split_single_schema (splitText chunk_size chunk_overlap) schema,
      ∃ body,
        c.content = str "TABLE: " ++ schema.table_name ++ str "\n\n"
          ++ labelFor c.chunk_type ++ body
      ∧ (c.chunk_type = ChunkType.DESCRIPTION.value → body = schema.table_comment)
      ∧ (c.chunk_type ≠ ChunkType.DESCRIPTION.value → pyStrip body = body) := by
  intro c hc
  simp only [split_single_schema] at hc
  split at hc
  · rcases List.mem_cons.mp hc with rfl | hc
    · refine ⟨schema.table_comment, ?_, fun _ => rfl, fun hne => absurd rfl hne⟩
      exact append_label_split (str "TABLE: " ++ schema.table_name)
        schema.table_comment _ _ _ rfl
    · rcases c10_block_chunk_shape hc with ⟨body, h1, h2, h3⟩
      exact ⟨body, h1, fun h => absurd h h3, fun _ => h2⟩
  · rcases c10_block_chunk_shape hc with ⟨body, h1, h2, h3⟩
    exact ⟨body, h1, fun h => absurd h h3, fun _ => h2⟩

/-- Witness for C10 (amended) at a concrete input: the single schema-type
chunk of a small table decomposes as header, label and stripped body. -/
theorem c10_header_amended_witness :
    ∃ body,
      (str "TABLE: t\n\nSCHEMA:\nCREATE TABLE t (a TEXT)")
        = str "TABLE: " ++ str "t" ++ str "\n\n"
          ++ labelFor ChunkType.SCHEMA.value ++ body
    ∧ (ChunkType.SCHEMA.value = ChunkType.DESCRIPTION.value
        → body = str "No description")
    ∧ (ChunkType.SCHEMA.value ≠ ChunkType.DESCRIPTION.value
        → pyStrip body = body) :=
  c10_header_amended ⟨str "t", [], str "CREATE TABLE t (a TEXT)", str "No description"⟩
    800 0
    ⟨str "t", [], str "TABLE: t\n\nSCHEMA:\nCREATE TABLE t (a TEXT)",
      ChunkType.SCHEMA.value, 1⟩
    (by decide)

/-! ## Claim C1: the Chunk/Document Builder (modelled from the spec) -/

/-- C1: for every input record the produced pair has content equal to the
record's text stripped of surrounding whitespace and metadata holding
`table_name`, `columns`, the fixed `source` literal, plus `chunk_type` and
`chunk_order` exactly when present; the spec's concrete scenario evaluates as
stated. -/
theorem c1_chunk_document_builder (r : ChunkRecord) :
    create_documents [r] = [(pyStrip r.content, build_metadata r)]
  ∧ dictFind? (build_metadata r) "table_name" = some (MetaVal.strv r.table_name)
  ∧ dictFind? (build_metadata r) "columns" = some (MetaVal.strList r.columns_names)
  ∧ dictFind? (build_metadata r) "source" = some (MetaVal.strv (str "database_schema"))
  ∧ dictFind? (build_metadata r) "chunk_type" = r.chunk_type.map MetaVal.strv
  ∧ dictFind? (build_metadata r) "chunk_order" = r.chunk_order.map MetaVal.natv
  ∧ create_documents
      [⟨str "t", [str "a", str "b"], str "X", some (str "schema"), some 1⟩]
      = [(str "X",
          [("table_name", MetaVal.strv (str "t")),
           ("columns", MetaVal.strList [str "a", str "b"]),
           ("source", MetaVal.strv (str "database_schema")),
           ("chunk_type", MetaVal.strv (str "schema")),
           ("chunk_order", MetaVal.natv 1)])] := by
  obtain ⟨tn, cn, ct, cty, co⟩ := r
  refine ⟨rfl, ?_, ?_, ?_, ?_, ?_, by decide⟩ <;> cases cty <;> cases co <;> rfl

/-! ## Claims C7 and C8: the Schema Extractor -/

/-- C7 counterexample: when the inspector signals that comment retrieval is
unsupported (raises), `_get_table_comment` does not substitute the sentinel —
the error propagates upward. -/
theorem c7_unsupported_propagates_counterexample :
    extract_table_comment unsupportedDb (str "t") = Except.error SourceError.unsupported
  ∧ extract_table_comment unsupportedDb (str "t") ≠ Except.ok (str "No description") := by
  refine ⟨rfl, ?_⟩
  intro h
  rw [show extract_table_comment unsupportedDb (str "t")
      = Except.error SourceError.unsupported from rfl] at h
  exact Except.noConfusion h

/-- C7 (amended): the sentinel `No description` is substituted only when the
mapping returned by the source has no `text` entry; a reported comment string
is returned as-is; a source error — including unsupported introspection — is
not caught and propagates instead of being mapped to the sentinel. -/
theorem c7_comment_sentinel_amended (db : DatabaseConnection) (t : Str) :
    (∀ e, db.get_table_comment t = Except.error e →
        extract_table_comment db t = Except.error e)
  ∧ (∀ d, db.get_table_comment t = Except.ok d →
        dictFind? d (str "text") = none →
        extract_table_comment db t = Except.ok (str "No description"))
  ∧ (∀ d v, db.get_table_comment t = Except.ok d →
        dictFind? d (str "text") = some v →
        extract_table_comment db t = Except.ok v) := by
  refine ⟨?_, ?_, ?_⟩
  · intro e he
    simp [extract_table_comment, he]
  · intro d hd hfind
    simp [extract_table_comment, hd, dictGetD, hfind]
  · intro d v hd hfind
    simp [extract_table_comment, hd, dictGetD, hfind]

/-- Witness for C7 (amended) at a concrete input: a source returning an empty
comment mapping yields the sentinel. -/
theorem c7_comment_sentinel_amended_witness :
    extract_table_comment emptyCommentDb (str "t") = Except.ok (str "No description") :=
  (c7_comment_sentinel_amended emptyCommentDb (str "t")).2.1 [] rfl rfl

theorem mapExcept_ok {α β ε : Type} (f : α → Except ε β) :
    ∀ (xs : List α) (ys : List β), mapExcept f xs = Except.ok ys →
      ys.length = xs.length
      ∧ ∀ (i : Nat) (x : α) (y : β), xs[i]? = some x → ys[i]? = some y →
          f x = Except.ok y := by
  intro xs
  induction xs with
  | nil =>
    intro ys h
    simp only [mapExcept, Except.ok.injEq] at h
    subst h
    exact ⟨rfl, fun i x y hx => by simp at hx⟩
  | cons a as ih =>
    intro ys h
    simp only [mapExcept] at h
    cases hfa : f a with
    | error e => simp [hfa] at h
    | ok b =>
      cases hrec : mapExcept f as with
      | error e => simp [hfa, hrec] at h
      | ok bs =>
        simp only [hfa, hrec, Except.ok.injEq] at h
        subst h
        obtain ⟨hlen, hptr⟩ := ih bs hrec
        refine ⟨by simp [hlen], ?_⟩
        intro i x y hx hy
        cases i with
        | zero =>
          simp only [List.getElem?_cons_zero, Option.some.injEq] at hx hy
          subst hx; subst hy
          exact hfa
        | succ i =>
          simp only [List.getElem?_cons_succ] at hx hy
          exact hptr i x y hx hy

theorem extract_table_schema_fields {db : DatabaseConnection} {t : Str}
    {s : TableSchema} (h : extract_table_schema db t = Except.ok s) :
    s.table_name = t := by
  simp only [extract_table_schema] at h
  cases h1 : db.get_table_info t with
  | error e => simp [h1] at h
  | ok info =>
    cases h2 : db.get_columns t with
    | error e => simp [h1, h2] at h
    | ok cols =>
      cases h3 : extract_table_comment db t with
      | error e => simp [h1, h2, h3] at h
      | ok comment =>
        simp only [h1, h2, h3, Except.ok.injEq] at h
        subst h
        rfl

/-- C8 counterexample: for a source reporting one usable table, the empty
table-name sequence yields the empty result — not one `TableSchema` per
usable table as the claim states for "absent or empty". -/
theorem c8_empty_list_counterexample :
    extract_schemas oneTableDb (some []) = Except.ok []
  ∧ oneTableDb.get_usable_table_names = [str "a"]
  ∧ extract_schemas oneTableDb none
      = Except.ok [⟨str "a", [], str "CREATE TABLE a (x TEXT)", str "No description"⟩] :=
  ⟨rfl, rfl, rfl⟩

/-- C8 (amended): when the argument is absent (`None`) the result has one
`TableSchema` per usable table, in the source's enumeration order; when a
sequence is given — including the empty one — the result has one
`TableSchema` per given name, in the given order.  (The empty sequence is not
treated like the absent argument.) -/
theorem c8_extract_schemas_amended (db : DatabaseConnection) :
    (∀ l, extract_schemas db none = Except.ok l →
        l.length = db.get_usable_table_names.length
      ∧ ∀ (i : Nat) (s : TableSchema), l[i]? = some s →
          db.get_usable_table_names[i]? = some s.table_name)
  ∧ (∀ ts l, extract_schemas db (some ts) = Except.ok l →
        l.length = ts.length
      ∧ ∀ (i : Nat) (s : TableSchema), l[i]? = some s →
          ts[i]? = some s.table_name) := by
  have key : ∀ (names : List Str) (l : List TableSchema),
      mapExcept (extract_table_schema db) names = Except.ok l →
      l.length = names.length
      ∧ ∀ (i : Nat) (s : TableSchema), l[i]? = some s →
          names[i]? = some s.table_name := by
    intro names l h
    obtain ⟨hlen, hptr⟩ := mapExcept_ok (extract_table_schema db) names l h
    refine ⟨hlen, ?_⟩
    intro i s hs
    have hi : i < l.length := (List.getElem?_eq_some_iff.mp hs).1
    have hi' : i < names.length := by omega
    have hx : names[i]? = some names[i] := List.getElem?_eq_some_iff.mpr ⟨hi', rfl⟩
    have hfx := hptr i names[i] s hx hs
    rw [hx, extract_table_schema_fields hfx]
  exact ⟨fun l h => key db.get_usable_table_names l h, fun ts l h => key ts l h⟩

/-- Witness for C8 (amended) at a concrete input. -/
theorem c8_extract_schemas_amended_witness :
    ([⟨str "a", [], str "CREATE TABLE a (x TEXT)", str "No description"⟩]
        : List TableSchema).length
      = oneTableDb.get_usable_table_names.length :=
  ((c8_extract_schemas_amended oneTableDb).1
    [⟨str "a", [], str "CREATE TABLE a (x TEXT)", str "No description"⟩] rfl).1
